import Mathlib

/-!
Verification of the network-analysis notebooks (`NetworkX.ipynb` and
`NetworkClusteringEnrichmentAnalysis.ipynb`).

The notebooks build undirected graphs over string node identifiers, compute
per-node metrics (degree, closeness centrality, clustering coefficient),
detect communities by greedy modularity maximisation, annotate nodes against
the cancer gene catalogue, and run per-cluster enrichment (ORA / GSEA).

Graphs are embedded as a node list plus an undirected edge list, matching the
way the notebooks build them (`add_node` / `add_nodes_from` / `add_edge` /
`add_edges_from`, or `read_gml`).  Library algorithms that are not part of the
repository (networkx metrics and community detection) are modelled from the
specification's description of them; glue code that is in the repository is
translated directly.
-/

namespace Networks

/-- Node identifiers are opaque strings (gene symbols, sample ids, ...). -/
abbrev Node := String

/-- A graph as the notebooks build it: a node list and an undirected edge list. -/
structure Graph where
  nodes : List Node
  edges : List (Node × Node)
deriving DecidableEq, Repr

/-- Undirected adjacency: an edge may be recorded in either orientation. -/
def Graph.Adj (G : Graph) (a b : Node) : Prop :=
  (a, b) ∈ G.edges ∨ (b, a) ∈ G.edges

instance (G : Graph) (a b : Node) : Decidable (G.Adj a b) :=
  inferInstanceAs (Decidable (_ ∨ _))

/-- The neighbours of a node: the nodes adjacent to it. -/
def Graph.neighbors (G : Graph) (v : Node) : List Node :=
  G.nodes.filter (fun w => decide (G.Adj v w))

/-- Degree of a node: its edge-incidence count (`G.degree` in the notebooks). -/
def Graph.degree (G : Graph) (v : Node) : Nat :=
  G.edges.countP (fun e => decide (e.1 = v ∨ e.2 = v))

/-- Sum of all node degrees of the graph. -/
def Graph.degreeSum (G : Graph) : Nat :=
  (G.nodes.map G.degree).sum

/-- The graph invariant from the spec's data model: node identifiers are
unique, and edges reference only nodes present in the node set, joining two
distinct nodes. -/
def Graph.WellFormed (G : Graph) : Prop :=
  G.nodes.Nodup ∧ ∀ e ∈ G.edges, e.1 ∈ G.nodes ∧ e.2 ∈ G.nodes ∧ e.1 ≠ e.2

instance (G : Graph) : Decidable G.WellFormed :=
  inferInstanceAs (Decidable (_ ∧ _))

/-- The concrete graph of `NetworkX.ipynb`: node "A", then nodes B..E, then
edge A-B, then edges A-C, B-D, C-D, D-E, in the order the cells add them. -/
def G : Graph :=
  { nodes := ["A"] ++ ["B", "C", "D", "E"],
    edges := [("A", "B")] ++ [("A", "C"), ("B", "D"), ("C", "D"), ("D", "E")] }

/-! ### Clustering coefficient (modelled from the spec, `nx.clustering`) -/

/-- Number of adjacent (unordered) pairs among the elements of a list. -/
def countAdjPairs (G' : Graph) : List Node → Nat
  | [] => 0
  | x :: xs => xs.countP (fun w => decide (G'.Adj x w)) + countAdjPairs G' xs

/-- Triangles at a node: adjacent pairs among its neighbours. -/
def Graph.triangles (G' : Graph) (v : Node) : Nat :=
  countAdjPairs G' (G'.neighbors v)

/-- Modelled from the spec: `nx.clustering` (the library call in
`NetworkX.ipynb` is not part of the repository).  "Clustering coefficient =
(2 × triangles at node) / (degree × (degree−1)) for degree ≥ 2, else 0." -/
def Graph.clustering (G' : Graph) (v : Node) : ℚ :=
  if 2 ≤ G'.degree v then
    (2 * G'.triangles v : ℚ) / ((G'.degree v : ℚ) * ((G'.degree v : ℚ) - 1))
  else 0

/-- The other endpoints of the edges incident to `v`, one per incident edge. -/
def incOther (G' : Graph) (v : Node) : List Node :=
  G'.edges.filterMap
    (fun e => if e.1 = v then some e.2 else if e.2 = v then some e.1 else none)

/-! ### Closeness centrality (modelled from the spec, `nx.closeness_centrality`) -/

/-- One breadth-first expansion step: a node set together with all neighbours
of its members. -/
def ballStep (G' : Graph) (s : List Node) : List Node :=
  (s ++ s.flatMap G'.neighbors).dedup

/-- The set of nodes within `k` steps of `u`. -/
def ball (G' : Graph) (u : Node) : Nat → List Node
  | 0 => [u]
  | k + 1 => ballStep G' (ball G' u k)

/-- Modelled from the spec: shortest-path distance between nodes, the smallest
number of expansion steps after which the target is reached (`none` when the
target is unreachable within the graph's node count, i.e. unreachable). -/
def Graph.dist (G' : Graph) (u v : Node) : Option Nat :=
  (List.range (G'.nodes.length + 1)).find? (fun k => decide (v ∈ ball G' u k))

/-- Number of nodes reachable from `u` (the size of `u`'s component). -/
def Graph.reachCount (G' : Graph) (u : Node) : Nat :=
  (G'.nodes.filter (fun v => (G'.dist u v).isSome)).length

/-- Sum of shortest-path distances from `u` to all reachable nodes. -/
def Graph.distSum (G' : Graph) (u : Node) : Nat :=
  ((G'.nodes.filter (fun v => (G'.dist u v).isSome)).map
    (fun v => (G'.dist u v).getD 0)).sum

/-- Modelled from the spec: `nx.closeness_centrality`.  "Closeness centrality
= (n-1) / sum of shortest-path distances from the node to all reachable
others, restricted to the connected component containing the node"; a node
with no reachable others gets 0. -/
def Graph.closeness (G' : Graph) (u : Node) : ℚ :=
  if G'.distSum u = 0 then 0
  else ((G'.reachCount u : ℚ) - 1) / (G'.distSum u : ℚ)

/-- Connectivity: every node reaches every node. -/
def Graph.Connected (G' : Graph) : Prop :=
  ∀ a ∈ G'.nodes, ∀ b ∈ G'.nodes, (G'.dist a b).isSome = true

instance (G' : Graph) : Decidable G'.Connected :=
  inferInstanceAs (Decidable (∀ a ∈ G'.nodes, ∀ b ∈ G'.nodes, _))

/-! ### Greedy modularity community detection (modelled from the spec,
`greedy_modularity_communities`) -/

/-- Number of edges with both endpoints inside a community. -/
def intraEdges (G' : Graph) (c : List Node) : Nat :=
  G'.edges.countP (fun e => decide (e.1 ∈ c ∧ e.2 ∈ c))

/-- Sum of the degrees of a community's members. -/
def degSumC (G' : Graph) (c : List Node) : Nat :=
  (c.map G'.degree).sum

/-- Modelled from the spec: modularity, "a score measuring the density of
edges inside proposed communities relative to edges between them", the
standard Newman formula Q = Σ_c (L_c/m − (deg_c/2m)²). -/
def modularity (G' : Graph) (part : List (List Node)) : ℚ :=
  if G'.edges.length = 0 then 0
  else (part.map (fun c =>
    (intraEdges G' c : ℚ) / (G'.edges.length : ℚ)
      - ((degSumC G' c : ℚ) / (2 * (G'.edges.length : ℚ))) ^ 2)).sum

/-- Merge the communities at positions `i` and `j` of the partition. -/
def mergeAt (part : List (List Node)) (i j : Nat) : List (List Node) :=
  (part.getD i [] ++ part.getD j []) :: ((part.eraseIdx j).eraseIdx i)

/-- All index pairs `i < j < k`. -/
def candidatePairs (k : Nat) : List (Nat × Nat) :=
  (List.range k).flatMap
    (fun i => (List.range k).filterMap (fun j => if i < j then some (i, j) else none))

/-- Modularity gain of merging the communities at positions `p.1` and `p.2`. -/
def mergeDelta (G' : Graph) (part : List (List Node)) (p : Nat × Nat) : ℚ :=
  modularity G' (mergeAt part p.1 p.2) - modularity G' part

/-- Keep whichever of the accumulator and the new candidate has the larger
gain (first seen wins ties; the library's internal tie-break is unspecified). -/
def bestStep (f : Nat × Nat → ℚ) (best : Option (Nat × Nat × ℚ)) (p : Nat × Nat) :
    Option (Nat × Nat × ℚ) :=
  match best with
  | none => some (p.1, p.2, f p)
  | some b => if b.2.2 < f p then some (p.1, p.2, f p) else some b

/-- The candidate merge with the largest modularity increase. -/
def bestMerge (G' : Graph) (part : List (List Node)) : Option (Nat × Nat × ℚ) :=
  (candidatePairs part.length).foldl (bestStep (mergeDelta G' part)) none

/-- Modelled from the spec: greedy agglomeration.  "Start with each node as
its own community; repeatedly merge the pair of communities yielding the
largest modularity increase; stop when no merge increases modularity."
Fuel bounds the number of merges; each merge shrinks the partition. -/
def greedyLoop (G' : Graph) : Nat → List (List Node) → List (List Node)
  | 0, part => part
  | fuel + 1, part =>
    match bestMerge G' part with
    | none => part
    | some (i, j, d) =>
      if 0 < d then greedyLoop G' fuel (mergeAt part i j) else part

/-- Modelled from the spec:
`nx.algorithms.community.modularity_max.greedy_modularity_communities`. -/
def greedy_modularity_communities (G' : Graph) : List (List Node) :=
  greedyLoop G' G'.nodes.length (G'.nodes.map (fun v => [v]))

/-! ### Cancer gene annotation (`found_in_cancer_genes`) -/

/-- A row of the cancer genome catalogue: its "Gene Symbol" and "Tier" columns. -/
structure CGCRow where
  geneSymbol : String
  tier : Int
deriving DecidableEq

/-- The Tier 1 gene symbols:
`cancer_genes_df[cancer_genes_df['Tier']==1]['Gene Symbol'].tolist()`. -/
def tier1Genes (rows : List CGCRow) : List String :=
  (rows.filter (fun r => decide (r.tier = 1))).map CGCRow.geneSymbol

/-- `found_in_cancer_genes = {node: bool(node in cancer_genes) for node in
list(G_gxp.nodes())}`, as an association list in node order. -/
def found_in_cancer_genes (rows : List CGCRow) (nodes : List Node) :
    List (Node × Bool) :=
  nodes.map (fun node => (node, decide (node ∈ tier1Genes rows)))

/-! ### Clustermap stage (`data = gs_res.heatmat.loc[genes]; data.rename(...)`) -/

/-- A data frame: column labels and rows keyed by gene symbol. -/
structure DF where
  cols : List String
  rows : List (String × List ℚ)
deriving DecidableEq

/-- `df.loc[genes]`: row subset by key list.  With a list indexer pandas
returns a copy, never a view. -/
def dfLocRows (df : DF) (genes : List String) : DF :=
  { cols := df.cols,
    rows := genes.filterMap (fun g =>
      (df.rows.find? (fun r => r.1 == g)).map (fun r => (g, r.2))) }

/-- `rename(columns=mapping)` on one column label: mapped if present in the
mapping, otherwise kept. -/
def renameCol (cls : List (String × String)) (c : String) : String :=
  match cls.find? (fun p => p.1 == c) with
  | some p => p.2
  | none => c

/-- `data.rename(columns=classes)`: relabel the columns, keep the data. -/
def renameCols (cls : List (String × String)) (df : DF) : DF :=
  { cols := df.cols.map (renameCol cls), rows := df.rows }

/-- The clustermap cell: `data = gs_res.heatmat.loc[genes]` (a copy), then
`data.rename(columns=classes, inplace=True)` (mutates only the copy).  The
result records the shared expression matrix, the shared heatmap frame and the
local frame after the stage. -/
def clustermapStage (tcga_gxp_df heatmat : DF) (genes : List String)
    (cls : List (String × String)) : DF × DF × DF :=
  let data := dfLocRows heatmat genes
  let data2 := renameCols cls data
  (tcga_gxp_df, heatmat, data2)

/-! ### Class assignment for GSEA (`classes`) -/

/-- The body of the class-assignment loop: `'Smoker' → 'smoker'`,
`'Never' → 'control'`, anything else is skipped (`pass`). -/
def classLabel (m : String) : Option String :=
  if m = "Smoker" then some "smoker"
  else if m = "Never" then some "control"
  else none

/-- The `classes` dictionary: one entry per sample column whose metadata
`Smoked` value is recognised, in column order. -/
def classes (samples : List String) (meta : String → String) :
    List (String × String) :=
  samples.filterMap (fun s => (classLabel (meta s)).map (fun lab => (s, lab)))

/-- `list(classes.values())`, the class-label list handed to `gp.gsea`. -/
def clsValues (samples : List String) (meta : String → String) : List String :=
  (classes samples meta).map Prod.snd

/-! ### Community colouring (`nodeColours`) -/

/-- The 20 colours of the `tab20` palette. -/
def tab20colors : List String :=
  ["#1f77b4", "#aec7e8", "#ff7f0e", "#ffbb78", "#2ca02c", "#98df8a", "#d62728",
   "#ff9896", "#9467bd", "#c5b0d5", "#8c564b", "#c49c94", "#e377c2", "#f7b6d2",
   "#7f7f7f", "#c7c7c7", "#bcbd22", "#dbdb8d", "#17becf", "#9edae5"]

/-- `communityColours = plt.cm.tab20.colors[:len(communities)]`. -/
def communityColours (communities : List (List Node)) : List String :=
  tab20colors.take communities.length

/-- The `communityDict` building loop: later communities overwrite earlier
entries for a node, so the recursion prefers the tail. -/
def communityDictAux (i : Nat) (v : Node) : List (List Node) → Option Nat
  | [] => none
  | c :: rest =>
    match communityDictAux (i + 1) v rest with
    | some j => some j
    | none => if v ∈ c then some i else none

/-- `communityDict[node]`: the index of the (last) community containing the
node, if any. -/
def communityDict (communities : List (List Node)) (v : Node) : Option Nat :=
  communityDictAux 0 v communities

/-- `nodeColours = [communityColours[communityDict[node]] for node in
G.nodes()]`; an out-of-range index or missing dict entry is `none`
(IndexError/KeyError in Python). -/
def nodeColours (communities : List (List Node)) (nodes : List Node) :
    List (Option String) :=
  nodes.map (fun v =>
    match communityDict communities v with
    | some i => (communityColours communities)[i]?
    | none => none)

/-! ### Per-cluster enrichment (`communityORA` / `communityGSEA` cells) -/

/-- Stable insertion of a community into a size-sorted (descending) list;
on ties the earlier community stays first, as Python's stable `sorted`. -/
def insertBySize (a : List Node) : List (List Node) → List (List Node)
  | [] => [a]
  | b :: bs => if b.length ≤ a.length then a :: b :: bs else b :: insertBySize a bs

/-- `sorted(communities, key=len, reverse=True)`: stable sort by community
size, largest first. -/
def sortBySizeDesc : List (List Node) → List (List Node)
  | [] => []
  | a :: rest => insertBySize a (sortBySizeDesc rest)

/-- The per-cluster enrichment cells: after sorting the communities by size,
the enrichment function is called exactly on `communities[0]`,
`communities[1]` and `communities[2]` (an IndexError — `none` — when there
are fewer than three).  `f` abstracts the external library call; it sees only
its community's gene list. -/
def perClusterCalls {α : Type} (f : List Node → α)
    (communities : List (List Node)) : Option (List α) :=
  match sortBySizeDesc communities with
  | c1 :: c2 :: c3 :: _ => some [f c1, f c2, f c3]
  | _ => none

/-- The ORA workflow cell: `communityORA(communities[0]) ...` with
`communityORA(genes) = gp.enrichr(gene_list=genes, ...)` abstracted as
`enrichr`. -/
def perClusterORA {α : Type} (enrichr : List Node → α)
    (communities : List (List Node)) : Option (List α) :=
  perClusterCalls enrichr communities

/-- `communityGSEA(genes)`: `gp.gsea(data=tcga_gxp_df.loc[genes], ...,
cls=list(classes.values()), ...)` with the external `gp.gsea` abstracted. -/
def communityGSEA {α : Type} (gsea : DF → List String → α) (tcga_gxp_df : DF)
    (clsVals : List String) (genes : List Node) : α :=
  gsea (dfLocRows tcga_gxp_df genes) clsVals

/-- The GSEA workflow cell: `communityGSEA(communities[0]) ...`. -/
def perClusterGSEA {α : Type} (gsea : DF → List String → α) (tcga_gxp_df : DF)
    (clsVals : List String) (communities : List (List Node)) : Option (List α) :=
  perClusterCalls (communityGSEA gsea tcga_gxp_df clsVals) communities

/-- A four-community partition on which the workflow is observed. -/
def csEx : List (List Node) := [["g1"], ["g2"], ["g3"], ["g4"]]

/-! ### Handshake lemma helpers -/

theorem sum_map_add (l : List Node) (f g : Node → Nat) :
    (l.map (fun v => f v + g v)).sum = (l.map f).sum + (l.map g).sum := by
  induction l with
  | nil => simp
  | cons x xs ih => simp [ih]; omega

theorem countP_single (l : List Node) (b : Node) (hnd : l.Nodup) (hb : b ∈ l) :
    l.countP (fun v => decide (b = v)) = 1 := by
  induction l with
  | nil => cases hb
  | cons x xs ih =>
    rw [List.countP_cons]
    rcases List.nodup_cons.mp hnd with ⟨hx, hxs⟩
    rcases List.mem_cons.mp hb with h | h
    · subst h
      have hz : xs.countP (fun v => decide (b = v)) = 0 := by
        rw [List.countP_eq_zero]
        intro v hv
        simp only [decide_eq_true_eq]
        intro hbv
        exact hx (by rwa [← hbv] at hv)
      simp [hz]
    · have hbx : ¬ b = x := fun hh => hx (by rwa [hh] at h)
      simp [ih hxs h, hbx]

theorem countP_or_disjoint (l : List Node) (a b : Node) (hab : a ≠ b) :
    l.countP (fun v => decide (a = v ∨ b = v)) =
      l.countP (fun v => decide (a = v)) + l.countP (fun v => decide (b = v)) := by
  induction l with
  | nil => simp
  | cons x xs ih =>
    rw [List.countP_cons, List.countP_cons, List.countP_cons, ih]
    by_cases hax : a = x
    · have hbx : ¬ b = x := fun h => hab (hax.trans h.symm)
      simp [hax, hbx]
      omega
    · by_cases hbx : b = x
      · simp [hax, hbx]
        omega
      · simp [hax, hbx]

theorem countP_pair (l : List Node) (a b : Node) (hnd : l.Nodup)
    (ha : a ∈ l) (hb : b ∈ l) (hab : a ≠ b) :
    l.countP (fun v => decide (a = v ∨ b = v)) = 2 := by
  rw [countP_or_disjoint l a b hab, countP_single l a hnd ha, countP_single l b hnd hb]

theorem sum_map_ite (l : List Node) (p : Node → Prop) [DecidablePred p] :
    (l.map (fun v => if p v then 1 else 0)).sum = l.countP (fun v => decide (p v)) := by
  induction l with
  | nil => simp
  | cons x xs ih =>
    rw [List.countP_cons]
    by_cases hx : p x
    · simp [hx, ih]
      omega
    · simp [hx, ih]

theorem handshake_aux (nodes : List Node) (hnd : nodes.Nodup) :
    ∀ es : List (Node × Node),
      (∀ e ∈ es, e.1 ∈ nodes ∧ e.2 ∈ nodes ∧ e.1 ≠ e.2) →
      (nodes.map (fun v => es.countP (fun e => decide (e.1 = v ∨ e.2 = v)))).sum
        = 2 * es.length := by
  intro es
  induction es with
  | nil => intro _; simp
  | cons e es ih =>
    intro h
    have he := h e (List.mem_cons_self _ _)
    have hes : ∀ e' ∈ es, e'.1 ∈ nodes ∧ e'.2 ∈ nodes ∧ e'.1 ≠ e'.2 :=
      fun e' he' => h e' (List.mem_cons_of_mem _ he')
    have hpt : ∀ v : Node, (e :: es).countP (fun e' => decide (e'.1 = v ∨ e'.2 = v))
        = es.countP (fun e' => decide (e'.1 = v ∨ e'.2 = v))
          + (if e.1 = v ∨ e.2 = v then 1 else 0) := by
      intro v
      rw [List.countP_cons]
      by_cases hv : e.1 = v ∨ e.2 = v <;> simp [hv]
    simp only [hpt]
    rw [sum_map_add, ih hes, sum_map_ite nodes (fun v => e.1 = v ∨ e.2 = v)]
    rw [countP_pair nodes e.1 e.2 hnd he.1 he.2.1 he.2.2]
    simp [List.length_cons]
    omega

/-! ### Claim theorems: degree -/

/-- C7: for every well-formed graph, the sum over all nodes of the node's
degree (edge-incidence count) equals twice the number of edges. -/
theorem C7_handshake (G' : Graph) (h : G'.WellFormed) :
    G'.degreeSum = 2 * G'.edges.length := by
  unfold Graph.degreeSum Graph.degree
  exact handshake_aux G'.nodes h.1 G'.edges h.2

/-- Witness for C7 at the concrete five-node graph of `NetworkX.ipynb`. -/
theorem C7_handshake_witness : Networks.G.degreeSum = 2 * Networks.G.edges.length :=
  C7_handshake Networks.G (by decide)

/-- C8: in the concrete graph with nodes {A,B,C,D,E} and edges
{A-B, A-C, B-D, C-D, D-E}, node D has degree 3, and no node has a larger
degree. -/
theorem C8_degreeD : Networks.G.degree "D" = 3 ∧
    ∀ v ∈ Networks.G.nodes, Networks.G.degree v ≤ 3 := by
  constructor
  · decide
  · decide

/-- Witness for C8: the bound applied at the concrete node D. -/
theorem C8_degreeD_witness : Networks.G.degree "D" ≤ 3 :=
  C8_degreeD.2 "D" (by decide)

theorem countAdjPairs_bound (G' : Graph) : ∀ l : List Node,
    2 * countAdjPairs G' l + l.length ≤ l.length * l.length := by
  intro l
  induction l with
  | nil => simp [countAdjPairs]
  | cons x xs ih =>
    have hc : xs.countP (fun w => decide (G'.Adj x w)) ≤ xs.length :=
      List.countP_le_length _
    simp only [countAdjPairs, List.length_cons]
    have hsq : (xs.length + 1) * (xs.length + 1)
        = xs.length * xs.length + 2 * xs.length + 1 := by ring
    rw [hsq]
    linarith

theorem length_incOther_aux (v : Node) : ∀ es : List (Node × Node),
    (es.filterMap
      (fun e => if e.1 = v then some e.2 else if e.2 = v then some e.1 else none)).length
      = es.countP (fun e => decide (e.1 = v ∨ e.2 = v)) := by
  intro es
  induction es with
  | nil => simp
  | cons e es ih =>
    rw [List.countP_cons, List.filterMap_cons]
    by_cases h1 : e.1 = v
    · simp [h1, ih]
    · by_cases h2 : e.2 = v
      · simp [h1, h2, ih]
      · simp [h1, h2, ih]

theorem neighbors_subset_incOther (G' : Graph) (v : Node) :
    ∀ w ∈ G'.neighbors v, w ∈ incOther G' v := by
  intro w hw
  have hadj : G'.Adj v w := by
    have h := List.mem_filter.mp hw
    simpa using h.2
  unfold incOther
  rcases hadj with h | h
  · exact List.mem_filterMap.mpr ⟨(v, w), h, by simp⟩
  · refine List.mem_filterMap.mpr ⟨(w, v), h, ?_⟩
    by_cases hwv : w = v
    · simp [hwv]
    · simp [hwv]

theorem length_neighbors_le_degree (G' : Graph) (v : Node) (hnd : G'.nodes.Nodup) :
    (G'.neighbors v).length ≤ G'.degree v := by
  have hnodup : (G'.neighbors v).Nodup := hnd.filter _
  have hsub : (G'.neighbors v).toFinset ⊆ (incOther G' v).toFinset := by
    intro x hx
    rw [List.mem_toFinset] at hx ⊢
    exact neighbors_subset_incOther G' v x hx
  calc (G'.neighbors v).length
      = (G'.neighbors v).toFinset.card := (List.toFinset_card_of_nodup hnodup).symm
    _ ≤ (incOther G' v).toFinset.card := Finset.card_le_card hsub
    _ ≤ (incOther G' v).length := List.toFinset_card_le _
    _ = G'.degree v := length_incOther_aux v G'.edges

/-- C6: the local clustering coefficient equals
(2 × triangles) / (degree × (degree−1)) when the degree is at least 2 and is
exactly 0 otherwise, and it always lies in [0,1]. -/
theorem C6_clustering (G' : Graph) (v : Node) (hnd : G'.nodes.Nodup) :
    (2 ≤ G'.degree v → G'.clustering v =
      (2 * G'.triangles v : ℚ) / ((G'.degree v : ℚ) * ((G'.degree v : ℚ) - 1))) ∧
    (G'.degree v < 2 → G'.clustering v = 0) ∧
    0 ≤ G'.clustering v ∧ G'.clustering v ≤ 1 := by
  refine ⟨fun h => by rw [Graph.clustering, if_pos h],
          fun h => by rw [Graph.clustering, if_neg (by omega)], ?_, ?_⟩
  · by_cases hd : 2 ≤ G'.degree v
    · rw [Graph.clustering, if_pos hd]
      have hd2 : (2 : ℚ) ≤ (G'.degree v : ℚ) := by exact_mod_cast hd
      apply div_nonneg
      · positivity
      · nlinarith
    · rw [Graph.clustering, if_neg hd]
  · by_cases hd : 2 ≤ G'.degree v
    · rw [Graph.clustering, if_pos hd]
      have hd2 : (2 : ℚ) ≤ (G'.degree v : ℚ) := by exact_mod_cast hd
      have hdenom : (0 : ℚ) < (G'.degree v : ℚ) * ((G'.degree v : ℚ) - 1) := by
        nlinarith
      rw [div_le_one hdenom]
      have hb := countAdjPairs_bound G' (G'.neighbors v)
      have hnl := length_neighbors_le_degree G' v hnd
      have hbQ : 2 * (G'.triangles v : ℚ) + ((G'.neighbors v).length : ℚ)
          ≤ ((G'.neighbors v).length : ℚ) * ((G'.neighbors v).length : ℚ) := by
        exact_mod_cast hb
      have hnlQ : ((G'.neighbors v).length : ℚ) ≤ (G'.degree v : ℚ) := by
        exact_mod_cast hnl
      have hnl0 : (0 : ℚ) ≤ ((G'.neighbors v).length : ℚ) := by positivity
      nlinarith
    · rw [Graph.clustering, if_neg hd]
      norm_num

/-- Witness for C6 at node D of the concrete graph. -/
theorem C6_clustering_witness :
    (2 ≤ Networks.G.degree "D" → Networks.G.clustering "D" =
      (2 * Networks.G.triangles "D" : ℚ) /
        ((Networks.G.degree "D" : ℚ) * ((Networks.G.degree "D" : ℚ) - 1))) ∧
    (Networks.G.degree "D" < 2 → Networks.G.clustering "D" = 0) ∧
    0 ≤ Networks.G.clustering "D" ∧ Networks.G.clustering "D" ≤ 1 :=
  C6_clustering Networks.G "D" (by decide)

theorem dist_self (G' : Graph) (u : Node) : G'.dist u u = some 0 := by
  unfold Graph.dist
  rw [List.range_succ_eq_map, List.find?_cons_of_pos]
  simp [ball]

theorem dist_mem_ball (G' : Graph) (u v : Node) (k : Nat)
    (h : G'.dist u v = some k) : v ∈ ball G' u k := by
  unfold Graph.dist at h
  have := List.find?_some h
  simpa using this

theorem dist_pos (G' : Graph) (u v : Node) (k : Nat) (hne : v ≠ u)
    (h : G'.dist u v = some k) : 1 ≤ k := by
  rcases k with _ | k
  · have hb := dist_mem_ball G' u v 0 h
    simp [ball] at hb
    exact absurd hb hne
  · omega

theorem sum_ge_of_all_pos (f : Node → Nat) : ∀ l : List Node,
    (∀ v ∈ l, 1 ≤ f v) → l.length ≤ (l.map f).sum := by
  intro l
  induction l with
  | nil => simp
  | cons x xs ih =>
    intro h
    have hx := h x (List.mem_cons_self _ _)
    have hxs := ih (fun v hv => h v (List.mem_cons_of_mem _ hv))
    simp only [List.map_cons, List.sum_cons, List.length_cons]
    omega

theorem sum_ge_except_one (f : Node → Nat) (u : Node) : ∀ l : List Node,
    l.Nodup → u ∈ l → (∀ v ∈ l, v ≠ u → 1 ≤ f v) →
    l.length ≤ (l.map f).sum + 1 := by
  intro l
  induction l with
  | nil => intro _ hu; cases hu
  | cons x xs ih =>
    intro hnd hu h
    rcases List.nodup_cons.mp hnd with ⟨hx, hxs⟩
    simp only [List.map_cons, List.sum_cons, List.length_cons]
    rcases List.mem_cons.mp hu with hux | hux
    · subst hux
      have : ∀ v ∈ xs, 1 ≤ f v := by
        intro v hv
        have hvu : v ≠ u := fun hh => hx (by rwa [hh] at hv)
        exact h v (List.mem_cons_of_mem _ hv) hvu
      have := sum_ge_of_all_pos f xs this
      omega
    · have hxu : x ≠ u := fun hh => hx (by rwa [← hh] at hux)
      have h1 := h x (List.mem_cons_self _ _) hxu
      have := ih hxs hux (fun v hv hvu => h v (List.mem_cons_of_mem _ hv) hvu)
      omega

theorem reachCount_le_distSum (G' : Graph) (u : Node) (hnd : G'.nodes.Nodup)
    (hu : u ∈ G'.nodes) : G'.reachCount u ≤ G'.distSum u + 1 := by
  unfold Graph.reachCount Graph.distSum
  apply sum_ge_except_one
  · exact hnd.filter _
  · rw [List.mem_filter]
    exact ⟨hu, by rw [dist_self]; rfl⟩
  · intro v hv hvu
    have hsome := (List.mem_filter.mp hv).2
    rcases Option.isSome_iff_exists.mp hsome with ⟨k, hk⟩
    have := dist_pos G' u v k hvu hk
    rw [hk]
    simpa using this

theorem ball_isolated (G' : Graph) (u : Node) (h : G'.neighbors u = []) :
    ∀ k, ball G' u k = [u] := by
  intro k
  induction k with
  | zero => rfl
  | succ k ih =>
    show ballStep G' (ball G' u k) = [u]
    rw [ih]
    simp [ballStep, h, List.dedup_cons_of_not_mem]

/-- C5: closeness centrality equals (n-1) divided by the sum of distances to
reachable others within the node's component; an isolated node has closeness
0; and in a connected graph with at least two nodes the value is in [0,1]. -/
theorem C5_closeness (G' : Graph) (u : Node) (hnd : G'.nodes.Nodup)
    (hu : u ∈ G'.nodes) :
    (G'.neighbors u = [] → G'.closeness u = 0) ∧
    (0 < G'.distSum u →
      G'.closeness u = ((G'.reachCount u : ℚ) - 1) / (G'.distSum u : ℚ)) ∧
    (G'.Connected → 2 ≤ G'.nodes.length →
      0 ≤ G'.closeness u ∧ G'.closeness u ≤ 1) := by
  refine ⟨?_, ?_, ?_⟩
  · intro hiso
    have hzero : G'.distSum u = 0 := by
      unfold Graph.distSum
      apply List.sum_eq_zero
      intro x hx
      rcases List.mem_map.mp hx with ⟨v, hv, hfv⟩
      have hsome := (List.mem_filter.mp hv).2
      rcases Option.isSome_iff_exists.mp hsome with ⟨k, hk⟩
      have hvu : v = u := by
        have hb := dist_mem_ball G' u v k hk
        rw [ball_isolated G' u hiso k] at hb
        simpa using hb
      subst hvu
      rw [dist_self] at hk
      rw [← hfv, dist_self]
      rfl
    rw [Graph.closeness, if_pos hzero]
  · intro hpos
    rw [Graph.closeness, if_neg (by omega)]
  · intro hconn hn
    have hfilter : G'.nodes.filter (fun v => (G'.dist u v).isSome) = G'.nodes :=
      List.filter_eq_self.mpr (fun v hv => hconn u hu v hv)
    have hrc : G'.reachCount u = G'.nodes.length := by
      unfold Graph.reachCount
      rw [hfilter]
    have hb := reachCount_le_distSum G' u hnd hu
    have hds : 1 ≤ G'.distSum u := by omega
    have hdsne : ¬ G'.distSum u = 0 := by omega
    rw [Graph.closeness, if_neg hdsne]
    have hdsQ : (0 : ℚ) < (G'.distSum u : ℚ) := by exact_mod_cast hds
    have hrcQ : (2 : ℚ) ≤ (G'.reachCount u : ℚ) := by
      rw [hrc]; exact_mod_cast hn
    constructor
    · apply div_nonneg
      · linarith
      · linarith
    · rw [div_le_one hdsQ]
      have : (G'.reachCount u : ℚ) ≤ (G'.distSum u : ℚ) + 1 := by exact_mod_cast hb
      linarith

/-- Witness for C5 at node A of the concrete graph. -/
theorem C5_closeness_witness :
    (Networks.G.neighbors "A" = [] → Networks.G.closeness "A" = 0) ∧
    (0 < Networks.G.distSum "A" →
      Networks.G.closeness "A" =
        ((Networks.G.reachCount "A" : ℚ) - 1) / (Networks.G.distSum "A" : ℚ)) ∧
    (Networks.G.Connected → 2 ≤ Networks.G.nodes.length →
      0 ≤ Networks.G.closeness "A" ∧ Networks.G.closeness "A" ≤ 1) :=
  C5_closeness Networks.G "A" (by decide) (by decide)

theorem mem_candidatePairs (k : Nat) (p : Nat × Nat) (h : p ∈ candidatePairs k) :
    p.1 < p.2 ∧ p.2 < k := by
  unfold candidatePairs at h
  rcases List.mem_flatMap.mp h with ⟨i, hi, hp⟩
  rcases List.mem_filterMap.mp hp with ⟨j, hj, hij⟩
  by_cases hlt : i < j
  · rw [if_pos hlt] at hij
    cases hij
    exact ⟨hlt, List.mem_range.mp hj⟩
  · rw [if_neg hlt] at hij
    cases hij

theorem foldl_bestStep_spec (f : Nat × Nat → ℚ) : ∀ (l : List (Nat × Nat))
    (acc : Option (Nat × Nat × ℚ)) (i j : Nat) (d : ℚ),
    l.foldl (bestStep f) acc = some (i, j, d) →
    acc = some (i, j, d) ∨ (i, j) ∈ l := by
  intro l
  induction l with
  | nil => intro acc i j d h; exact Or.inl h
  | cons p l ih =>
    intro acc i j d h
    rcases ih (bestStep f acc p) i j d h with hstep | hmem
    · cases acc with
      | none =>
        simp only [bestStep] at hstep
        cases hstep
        exact Or.inr (List.mem_cons_self _ _)
      | some b =>
        simp only [bestStep] at hstep
        by_cases hlt : b.2.2 < f p
        · rw [if_pos hlt] at hstep
          cases hstep
          exact Or.inr (List.mem_cons_self _ _)
        · rw [if_neg hlt] at hstep
          exact Or.inl hstep
    · exact Or.inr (List.mem_cons_of_mem _ hmem)

theorem bestMerge_bounds (G' : Graph) (part : List (List Node)) (i j : Nat)
    (d : ℚ) (h : bestMerge G' part = some (i, j, d)) :
    i < j ∧ j < part.length := by
  rcases foldl_bestStep_spec (mergeDelta G' part) _ none i j d h with hnone | hmem
  · cases hnone
  · exact mem_candidatePairs part.length (i, j) hmem

theorem perm_getD_cons_eraseIdx (d : List Node) :
    ∀ (l : List (List Node)) (i : Nat), i < l.length →
      l.Perm (l.getD i d :: l.eraseIdx i) := by
  intro l
  induction l with
  | nil => intro i h; simp at h
  | cons x xs ih =>
    intro i hi
    rcases i with _ | i
    · simp [List.getD]
    · have hi' : i < xs.length := by simpa using hi
      have h := ih i hi'
      have h2 : (x :: xs).Perm (x :: xs.getD i d :: xs.eraseIdx i) := h.cons x
      exact h2.trans (List.Perm.swap _ _ _)

theorem getD_eraseIdx_of_lt (d : List Node) :
    ∀ (l : List (List Node)) (i j : Nat), i < j →
      (l.eraseIdx j).getD i d = l.getD i d := by
  intro l
  induction l with
  | nil => intro i j _; simp
  | cons x xs ih =>
    intro i j hij
    rcases j with _ | j
    · omega
    · rcases i with _ | i
      · simp [List.getD]
      · have := ih i j (by omega)
        simpa [List.getD] using this

theorem mergeAt_flatten_perm (part : List (List Node)) (i j : Nat)
    (hij : i < j) (hj : j < part.length) :
    ((mergeAt part i j).flatten).Perm part.flatten := by
  have hi' : i < (part.eraseIdx j).length := by
    rw [List.length_eraseIdx_of_lt hj]
    omega
  have h1 : part.Perm (part.getD j [] :: part.eraseIdx j) :=
    perm_getD_cons_eraseIdx [] part j hj
  have h2 : (part.eraseIdx j).Perm
      ((part.eraseIdx j).getD i [] :: (part.eraseIdx j).eraseIdx i) :=
    perm_getD_cons_eraseIdx [] (part.eraseIdx j) i hi'
  rw [getD_eraseIdx_of_lt [] part i j hij] at h2
  have h3 : part.Perm
      (part.getD j [] :: part.getD i [] :: (part.eraseIdx j).eraseIdx i) :=
    h1.trans (h2.cons _)
  have h4 := h3.flatten
  simp only [List.flatten_cons] at h4
  unfold mergeAt
  simp only [List.flatten_cons]
  rw [List.append_assoc]
  exact (List.perm_append_comm_assoc _ _ _).trans h4.symm

theorem greedyLoop_flatten_perm (G' : Graph) : ∀ (fuel : Nat)
    (part : List (List Node)),
    ((greedyLoop G' fuel part).flatten).Perm part.flatten := by
  intro fuel
  induction fuel with
  | zero => intro part; exact List.Perm.refl _
  | succ fuel ih =>
    intro part
    show ((match bestMerge G' part with
      | none => part
      | some (i, j, d) =>
        if 0 < d then greedyLoop G' fuel (mergeAt part i j) else part).flatten).Perm
        part.flatten
    cases hbm : bestMerge G' part with
    | none => exact List.Perm.refl _
    | some t =>
      obtain ⟨i, j, d⟩ := t
      show ((if 0 < d then greedyLoop G' fuel (mergeAt part i j) else part).flatten).Perm
        part.flatten
      by_cases hd : 0 < d
      · rw [if_pos hd]
        have hb := bestMerge_bounds G' part i j d hbm
        exact (ih (mergeAt part i j)).trans
          (mergeAt_flatten_perm part i j hb.1 hb.2)
      · rw [if_neg hd]

theorem flatten_singletons : ∀ l : List Node, (l.map (fun v => [v])).flatten = l := by
  intro l
  induction l with
  | nil => rfl
  | cons x xs ih => simp [ih]

/-- C4: the community partition returned by greedy modularity detection is a
sequence of pairwise-disjoint node subsets whose union is exactly the graph's
node set, so every node belongs to exactly one community. -/
theorem C4_partition (G' : Graph) (hnd : G'.nodes.Nodup) :
    ((greedy_modularity_communities G').flatten).Perm G'.nodes ∧
    (∀ c ∈ greedy_modularity_communities G', c.Nodup) ∧
    List.Pairwise List.Disjoint (greedy_modularity_communities G') := by
  have hperm : ((greedy_modularity_communities G').flatten).Perm G'.nodes := by
    unfold greedy_modularity_communities
    have h := greedyLoop_flatten_perm G' G'.nodes.length (G'.nodes.map (fun v => [v]))
    rwa [flatten_singletons] at h
  have hnodup : ((greedy_modularity_communities G').flatten).Nodup :=
    hperm.nodup_iff.mpr hnd
  rcases List.nodup_flatten.mp hnodup with ⟨hall, hdisj⟩
  exact ⟨hperm, hall, hdisj⟩

/-- Witness for C4 at the concrete five-node graph. -/
theorem C4_partition_witness :
    ((greedy_modularity_communities Networks.G).flatten).Perm Networks.G.nodes ∧
    (∀ c ∈ greedy_modularity_communities Networks.G, c.Nodup) ∧
    List.Pairwise List.Disjoint (greedy_modularity_communities Networks.G) :=
  C4_partition Networks.G (by decide)

theorem lookup_map_self {β : Type} (f : Node → β) :
    ∀ (l : List Node) (x : Node), x ∈ l →
      (l.map (fun n => (n, f n))).lookup x = some (f x) := by
  intro l
  induction l with
  | nil => intro x hx; cases hx
  | cons a l ih =>
    intro x hx
    by_cases hxa : x = a
    · subst hxa
      simp [List.lookup]
    · rcases List.mem_cons.mp hx with h | h
      · exact absurd h hxa
      · have hbeq : (x == a) = false := by simpa using hxa
        simp only [List.map_cons, List.lookup, hbeq]
        exact ih x h

/-- C2: a node is mapped to `true` iff its identifier occurs in a Tier 1 row
of the reference; a node absent from the reference is mapped to `false`
(the lookup succeeds, no error). -/
theorem C2_annotation (rows : List CGCRow) (nodes : List Node) (node : Node)
    (hmem : node ∈ nodes) :
    ((found_in_cancer_genes rows nodes).lookup node = some true ↔
      ∃ r ∈ rows, r.tier = 1 ∧ r.geneSymbol = node) ∧
    ((¬ ∃ r ∈ rows, r.geneSymbol = node) →
      (found_in_cancer_genes rows nodes).lookup node = some false) := by
  have hl : (found_in_cancer_genes rows nodes).lookup node
      = some (decide (node ∈ tier1Genes rows)) :=
    lookup_map_self _ nodes node hmem
  have hiff : node ∈ tier1Genes rows ↔
      ∃ r ∈ rows, r.tier = 1 ∧ r.geneSymbol = node := by
    unfold tier1Genes
    constructor
    · intro h
      rcases List.mem_map.mp h with ⟨r, hr, hsym⟩
      rcases List.mem_filter.mp hr with ⟨hrr, htier⟩
      exact ⟨r, hrr, by simpa using htier, hsym⟩
    · rintro ⟨r, hr, htier, hsym⟩
      exact List.mem_map.mpr ⟨r, List.mem_filter.mpr ⟨hr, by simpa using htier⟩, hsym⟩
  constructor
  · rw [hl]
    constructor
    · intro h
      have hdec : decide (node ∈ tier1Genes rows) = true := by
        injection h
      exact hiff.mp (of_decide_eq_true hdec)
    · intro h
      rw [decide_eq_true (hiff.mpr h)]
  · intro habs
    rw [hl]
    have hnot : ¬ node ∈ tier1Genes rows := by
      intro h
      rcases hiff.mp h with ⟨r, hr, _, hsym⟩
      exact habs ⟨r, hr, hsym⟩
    rw [decide_eq_false hnot]

/-- Witness for C2: concrete catalogue rows and node set; TP53 is Tier 1. -/
theorem C2_annotation_witness :
    ((found_in_cancer_genes [⟨"TP53", 1⟩, ⟨"XYZ", 2⟩] ["TP53", "FOO"]).lookup "TP53"
        = some true ↔
      ∃ r ∈ [(⟨"TP53", 1⟩ : CGCRow), ⟨"XYZ", 2⟩], r.tier = 1 ∧ r.geneSymbol = "TP53") ∧
    ((¬ ∃ r ∈ [(⟨"TP53", 1⟩ : CGCRow), ⟨"XYZ", 2⟩], r.geneSymbol = "TP53") →
      (found_in_cancer_genes [⟨"TP53", 1⟩, ⟨"XYZ", 2⟩] ["TP53", "FOO"]).lookup "TP53"
        = some false) :=
  C2_annotation [⟨"TP53", 1⟩, ⟨"XYZ", 2⟩] ["TP53", "FOO"] "TP53" (by decide)

theorem renameCol_of_find_none (cls : List (String × String)) (c : String)
    (h : cls.find? (fun p => p.1 == c) = none) : renameCol cls c = c := by
  unfold renameCol
  rw [h]

theorem renameCol_of_find_some (cls : List (String × String)) (c : String)
    (p : String × String) (h : cls.find? (fun q => q.1 == c) = some p) :
    renameCol cls c = p.2 := by
  unfold renameCol
  rw [h]

theorem renameCol_idem (cls : List (String × String))
    (hdisj : ∀ p ∈ cls, ∀ q ∈ cls, q.1 ≠ p.2) (c : String) :
    renameCol cls (renameCol cls c) = renameCol cls c := by
  cases hf : cls.find? (fun p => p.1 == c) with
  | none =>
    rw [renameCol_of_find_none cls c hf, renameCol_of_find_none cls c hf]
  | some p =>
    rw [renameCol_of_find_some cls c p hf]
    have hp : p ∈ cls := List.mem_of_find?_eq_some hf
    apply renameCol_of_find_none
    rw [List.find?_eq_none]
    intro q hq
    simpa using hdisj p hp q hq

/-- C3: the clustermap stage leaves the shared expression matrix and the
shared GSEA heatmap frame unchanged (the rename acts on a computation-local
copy), and the column rename is idempotent when no produced label is itself a
key of the mapping — as in the run, where the keys are sample identifiers and
the values are the class labels "smoker"/"control". -/
theorem C3_clustermap_frame (tcga heatmat : DF) (genes : List String)
    (cls : List (String × String))
    (hdisj : ∀ p ∈ cls, ∀ q ∈ cls, q.1 ≠ p.2) :
    (clustermapStage tcga heatmat genes cls).1 = tcga ∧
    (clustermapStage tcga heatmat genes cls).2.1 = heatmat ∧
    renameCols cls (renameCols cls (dfLocRows heatmat genes))
      = renameCols cls (dfLocRows heatmat genes) := by
  refine ⟨rfl, rfl, ?_⟩
  unfold renameCols
  simp only [DF.mk.injEq, and_true]
  rw [List.map_map]
  apply List.map_congr_left
  intro c _
  exact renameCol_idem cls hdisj c

/-- Witness for C3 at a concrete heatmap frame and class mapping. -/
theorem C3_clustermap_frame_witness :
    (clustermapStage ⟨["s1"], [("g1", [1])]⟩ ⟨["s1"], [("g1", [2])]⟩ ["g1"]
        [("s1", "smoker")]).1 = ⟨["s1"], [("g1", [1])]⟩ ∧
    (clustermapStage ⟨["s1"], [("g1", [1])]⟩ ⟨["s1"], [("g1", [2])]⟩ ["g1"]
        [("s1", "smoker")]).2.1 = ⟨["s1"], [("g1", [2])]⟩ ∧
    renameCols [("s1", "smoker")]
        (renameCols [("s1", "smoker")] (dfLocRows ⟨["s1"], [("g1", [2])]⟩ ["g1"]))
      = renameCols [("s1", "smoker")] (dfLocRows ⟨["s1"], [("g1", [2])]⟩ ["g1"]) :=
  C3_clustermap_frame ⟨["s1"], [("g1", [1])]⟩ ⟨["s1"], [("g1", [2])]⟩ ["g1"]
    [("s1", "smoker")] (by decide)

theorem classes_lookup_not_mem (meta : String → String) :
    ∀ (samples : List String) (s : String), s ∉ samples →
      (classes samples meta).lookup s = none := by
  intro samples
  induction samples with
  | nil => intro s _; rfl
  | cons a l ih =>
    intro s hs
    have hsa : ¬ s = a := fun h => hs (h ▸ List.mem_cons_self _ _)
    have hsl : s ∉ l := fun h => hs (List.mem_cons_of_mem _ h)
    unfold classes
    rw [List.filterMap_cons]
    cases hcl : classLabel (meta a) with
    | none => exact ih s hsl
    | some lab =>
      have hbeq : (s == a) = false := by simpa using hsa
      simp only [Option.map_some, List.lookup, hbeq]
      exact ih s hsl

theorem classes_lookup (meta : String → String) :
    ∀ (samples : List String) (s : String), samples.Nodup → s ∈ samples →
      (classes samples meta).lookup s = classLabel (meta s) := by
  intro samples
  induction samples with
  | nil => intro s _ hs; cases hs
  | cons a l ih =>
    intro s hnd hs
    rcases List.nodup_cons.mp hnd with ⟨ha, hl⟩
    unfold classes
    rw [List.filterMap_cons]
    by_cases hsa : s = a
    · subst hsa
      cases hcl : classLabel (meta s) with
      | none =>
        have := classes_lookup_not_mem meta l s ha
        unfold classes at this
        exact this
      | some lab =>
        simp [List.lookup]
    · have h : s ∈ l := by
        rcases List.mem_cons.mp hs with h | h
        · exact absurd h hsa
        · exact h
      cases hcl : classLabel (meta a) with
      | none => exact ih s hl h
      | some lab =>
        have hbeq : (s == a) = false := by simpa using hsa
        simp only [Option.map_some, List.lookup, hbeq]
        exact ih s hl h

/-- C9: a sample is recorded as "smoker" iff its metadata Smoked value is
"Smoker", as "control" iff it is "Never", and gets no entry for any other
value; hence the class list handed to GSEA is at most as long as the sample
column list, and can be strictly shorter. -/
theorem C9_classes (samples : List String) (meta : String → String)
    (hnd : samples.Nodup) :
    (∀ s ∈ samples,
      ((classes samples meta).lookup s = some "smoker" ↔ meta s = "Smoker") ∧
      ((classes samples meta).lookup s = some "control" ↔ meta s = "Never") ∧
      (meta s ≠ "Smoker" → meta s ≠ "Never" →
        (classes samples meta).lookup s = none)) ∧
    (clsValues samples meta).length ≤ samples.length ∧
    (∃ (samples2 : List String) (meta2 : String → String),
      (clsValues samples2 meta2).length < samples2.length) := by
  refine ⟨?_, ?_, ?_⟩
  · intro s hs
    have hchar := classes_lookup meta samples s hnd hs
    rw [hchar]
    unfold classLabel
    by_cases h1 : meta s = "Smoker"
    · rw [if_pos h1]
      refine ⟨⟨fun _ => h1, fun _ => rfl⟩, ⟨?_, ?_⟩, fun hns _ => absurd h1 hns⟩
      · intro h
        exact absurd h (by decide)
      · intro h
        rw [h1] at h
        exact absurd h (by decide)
    · by_cases h2 : meta s = "Never"
      · rw [if_neg h1, if_pos h2]
        refine ⟨⟨?_, ?_⟩, ⟨fun _ => h2, fun _ => rfl⟩, fun _ hnn => absurd h2 hnn⟩
        · intro h
          exact absurd h (by decide)
        · intro h
          rw [h2] at h
          exact absurd h (by decide)
      · rw [if_neg h1, if_neg h2]
        refine ⟨⟨(fun h => by cases h), fun h => absurd h h1⟩,
                ⟨(fun h => by cases h), fun h => absurd h h2⟩,
                fun _ _ => rfl⟩
  · unfold clsValues
    rw [List.length_map]
    exact List.length_filterMap_le _ _
  · exact ⟨["s1"], fun _ => "ExSmoker", by decide⟩

/-- Witness for C9 at a concrete sample list and metadata. -/
theorem C9_classes_witness :
    (∀ s ∈ ["p1", "p2", "p3"],
      ((classes ["p1", "p2", "p3"]
          (fun s => if s = "p1" then "Smoker" else if s = "p2" then "Never" else "Ex")).lookup s
        = some "smoker" ↔
        (if s = "p1" then "Smoker" else if s = "p2" then "Never" else "Ex") = "Smoker") ∧
      ((classes ["p1", "p2", "p3"]
          (fun s => if s = "p1" then "Smoker" else if s = "p2" then "Never" else "Ex")).lookup s
        = some "control" ↔
        (if s = "p1" then "Smoker" else if s = "p2" then "Never" else "Ex") = "Never") ∧
      ((if s = "p1" then "Smoker" else if s = "p2" then "Never" else "Ex") ≠ "Smoker" →
       (if s = "p1" then "Smoker" else if s = "p2" then "Never" else "Ex") ≠ "Never" →
        (classes ["p1", "p2", "p3"]
          (fun s => if s = "p1" then "Smoker" else if s = "p2" then "Never" else "Ex")).lookup s
          = none)) ∧
    (clsValues ["p1", "p2", "p3"]
      (fun s => if s = "p1" then "Smoker" else if s = "p2" then "Never" else "Ex")).length
      ≤ (["p1", "p2", "p3"] : List String).length ∧
    (∃ (samples2 : List String) (meta2 : String → String),
      (clsValues samples2 meta2).length < samples2.length) :=
  C9_classes ["p1", "p2", "p3"]
    (fun s => if s = "p1" then "Smoker" else if s = "p2" then "Never" else "Ex")
    (by decide)

theorem communityDictAux_bounds (v : Node) :
    ∀ (cs : List (List Node)) (i j : Nat),
      communityDictAux i v cs = some j → i ≤ j ∧ j < i + cs.length := by
  intro cs
  induction cs with
  | nil => intro i j h; cases h
  | cons c rest ih =>
    intro i j h
    unfold communityDictAux at h
    cases haux : communityDictAux (i + 1) v rest with
    | some j' =>
      rw [haux] at h
      cases h
      have := ih (i + 1) j haux
      constructor
      · omega
      · simp only [List.length_cons]
        omega
    | none =>
      rw [haux] at h
      by_cases hv : v ∈ c
      · rw [if_pos hv] at h
        cases h
        simp only [List.length_cons]
        omega
      · rw [if_neg hv] at h
        cases h

theorem communityDictAux_isSome (v : Node) :
    ∀ (cs : List (List Node)) (i : Nat), (∃ c ∈ cs, v ∈ c) →
      (communityDictAux i v cs).isSome = true := by
  intro cs
  induction cs with
  | nil => intro i h; rcases h with ⟨c, hc, _⟩; cases hc
  | cons c rest ih =>
    intro i h
    unfold communityDictAux
    cases haux : communityDictAux (i + 1) v rest with
    | some j => rfl
    | none =>
      rcases h with ⟨c', hc', hv⟩
      rcases List.mem_cons.mp hc' with hh | hh
      · subst hh
        rw [if_pos hv]
        rfl
      · have := ih (i + 1) ⟨c', hh, hv⟩
        rw [haux] at this
        cases this

theorem communityDictAux_deep (v : Node) :
    ∀ (cs : List (List Node)) (i k : Nat), k < cs.length → v ∈ cs.getD k [] →
      ∃ j, communityDictAux i v cs = some j ∧ i + k ≤ j := by
  intro cs
  induction cs with
  | nil => intro i k hk _; simp at hk
  | cons c rest ih =>
    intro i k hk hv
    rcases k with _ | k
    · unfold communityDictAux
      cases haux : communityDictAux (i + 1) v rest with
      | some j =>
        have := communityDictAux_bounds v rest (i + 1) j haux
        exact ⟨j, rfl, by omega⟩
      | none =>
        simp only [List.getD_cons_zero] at hv
        rw [if_pos hv]
        exact ⟨i, rfl, by omega⟩
    · have hk' : k < rest.length := by simpa using hk
      simp only [List.getD_cons_succ] at hv
      rcases ih (i + 1) k hk' hv with ⟨j, hj, hge⟩
      unfold communityDictAux
      rw [hj]
      exact ⟨j, rfl, by omega⟩

/-- C10: the palette is truncated to at most 20 entries, and (for a partition
of the node set into nonempty communities) every node's palette lookup is in
bounds iff the partition has at most 20 communities. -/
theorem C10_nodeColours (cs : List (List Node)) (nodes : List Node)
    (hsub : ∀ c ∈ cs, ∀ v ∈ c, v ∈ nodes)
    (hcov : ∀ v ∈ nodes, ∃ c ∈ cs, v ∈ c)
    (hne : ∀ c ∈ cs, c ≠ []) :
    (communityColours cs).length ≤ 20 ∧
    ((∀ o ∈ nodeColours cs nodes, o.isSome = true) ↔ cs.length ≤ 20) := by
  have hpal : (communityColours cs).length = min cs.length 20 := by
    unfold communityColours
    rw [List.length_take]
    rfl
  refine ⟨by rw [hpal]; omega, ?_, ?_⟩
  · intro hall
    by_contra hgt
    push_neg at hgt
    have h20 : 20 < cs.length := hgt
    have hcmem : cs.getD 20 [] ∈ cs := by
      rw [List.getD_eq_getElem cs [] h20]
      exact List.getElem_mem h20
    have hcne := hne _ hcmem
    rcases hcget : cs.getD 20 [] with _ | ⟨v, tl⟩
    · exact hcne hcget
    · have hvmem : v ∈ cs.getD 20 [] := by
        rw [hcget]
        exact List.mem_cons_self _ _
      have hvnodes : v ∈ nodes := hsub _ hcmem v hvmem
      rcases communityDictAux_deep v cs 0 20 h20 hvmem with ⟨j, hj, hge⟩
      have hentry : (match communityDict cs v with
          | some i => (communityColours cs)[i]?
          | none => none) ∈ nodeColours cs nodes :=
        List.mem_map.mpr ⟨v, hvnodes, rfl⟩
      have hsome := hall _ hentry
      rw [communityDict, hj] at hsome
      have hj20 : (communityColours cs)[j]?.isSome = true := hsome
      have hjlt : j < (communityColours cs).length := by
        by_contra hge2
        push_neg at hge2
        rw [List.getElem?_eq_none hge2] at hj20
        cases hj20
      rw [hpal] at hjlt
      omega
  · intro hle o ho
    rcases List.mem_map.mp ho with ⟨v, hv, hov⟩
    rcases hcov v hv with ⟨c, hc, hvc⟩
    have hisSome := communityDictAux_isSome v cs 0 ⟨c, hc, hvc⟩
    rcases Option.isSome_iff_exists.mp hisSome with ⟨j, hj⟩
    have hb := communityDictAux_bounds v cs 0 j hj
    rw [← hov, communityDict, hj]
    show ((communityColours cs)[j]?).isSome = true
    have hjlt : j < (communityColours cs).length := by
      rw [hpal]
      omega
    rw [List.getElem?_eq_getElem hjlt]
    rfl

/-- Witness for C10 at a concrete two-community partition. -/
theorem C10_nodeColours_witness :
    (communityColours [["a"], ["b"]]).length ≤ 20 ∧
    ((∀ o ∈ nodeColours [["a"], ["b"]] ["a", "b"], o.isSome = true) ↔
      ([["a"], ["b"]] : List (List Node)).length ≤ 20) :=
  C10_nodeColours [["a"], ["b"]] ["a", "b"] (by decide) (by decide) (by decide)

theorem length_insertBySize (a : List Node) :
    ∀ l, (insertBySize a l).length = l.length + 1 := by
  intro l
  induction l with
  | nil => rfl
  | cons b bs ih =>
    unfold insertBySize
    by_cases h : b.length ≤ a.length
    · rw [if_pos h]
      rfl
    · rw [if_neg h]
      simp [ih]

theorem length_sortBySizeDesc :
    ∀ l, (sortBySizeDesc l).length = l.length := by
  intro l
  induction l with
  | nil => rfl
  | cons a rest ih =>
    unfold sortBySizeDesc
    rw [length_insertBySize, ih]
    rfl

theorem insertBySize_perm (a : List Node) :
    ∀ l, (insertBySize a l).Perm (a :: l) := by
  intro l
  induction l with
  | nil => exact List.Perm.refl _
  | cons b bs ih =>
    unfold insertBySize
    by_cases h : b.length ≤ a.length
    · rw [if_pos h]
    · rw [if_neg h]
      exact (ih.cons b).trans (List.Perm.swap _ _ _)

theorem sortBySizeDesc_perm : ∀ l, (sortBySizeDesc l).Perm l := by
  intro l
  induction l with
  | nil => exact List.Perm.refl _
  | cons a rest ih =>
    unfold sortBySizeDesc
    exact (insertBySize_perm a (sortBySizeDesc rest)).trans (ih.cons a)

theorem mem_insertBySize (a z : List Node) (l : List (List Node))
    (h : z ∈ insertBySize a l) : z = a ∨ z ∈ l :=
  List.mem_cons.mp ((insertBySize_perm a l).mem_iff.mp h)

theorem insertBySize_sorted (a : List Node) :
    ∀ l, List.Pairwise (fun x y => y.length ≤ x.length) l →
      List.Pairwise (fun x y => y.length ≤ x.length) (insertBySize a l) := by
  intro l
  induction l with
  | nil =>
    intro _
    unfold insertBySize
    simp
  | cons b bs ih =>
    intro hp
    rcases List.pairwise_cons.mp hp with ⟨hb, hbs⟩
    unfold insertBySize
    by_cases h : b.length ≤ a.length
    · rw [if_pos h]
      refine List.pairwise_cons.mpr ⟨?_, hp⟩
      intro z hz
      rcases List.mem_cons.mp hz with hh | hh
      · rw [hh]
        exact h
      · exact le_trans (hb z hh) h
    · rw [if_neg h]
      refine List.pairwise_cons.mpr ⟨?_, ih hbs⟩
      intro z hz
      rcases mem_insertBySize a z bs hz with hh | hh
      · rw [hh]
        omega
      · exact hb z hh

theorem sortBySizeDesc_sorted :
    ∀ l, List.Pairwise (fun x y => y.length ≤ x.length) (sortBySizeDesc l) := by
  intro l
  induction l with
  | nil => simp [sortBySizeDesc]
  | cons a rest ih =>
    unfold sortBySizeDesc
    exact insertBySize_sorted a (sortBySizeDesc rest) ih

/-- C1 counterexample: on a four-community partition, the workflow performs
exactly three enrichment invocations, not one per community of the detected
partition; and on a two-community partition it performs none at all (index
error), rather than one per community. -/
theorem C1_counterexample :
    csEx.length = 4 ∧
    (perClusterORA (fun genes => genes) csEx).map List.length = some 3 ∧
    (perClusterORA (fun genes => genes) csEx).map List.length ≠ some csEx.length ∧
    perClusterORA (fun genes => genes) [["a"], ["b"]] = none := by
  decide

/-- C1 (amended): when the detected partition has at least three communities,
each enrichment mode is invoked exactly once per community among the three
largest (the first three of the size-sorted community list); each invocation
is an independent pure function of its own community's gene list, so the
calls share no mutable state and the outcome is insensitive to their order —
the result list is determined slot-by-slot by `f` on the selected community
alone. -/
theorem C1_perCluster {α : Type} (f : List Node → α)
    (communities : List (List Node)) (h3 : 3 ≤ communities.length) :
    (sortBySizeDesc communities).Perm communities ∧
    List.Pairwise (fun x y => y.length ≤ x.length) (sortBySizeDesc communities) ∧
    perClusterCalls f communities
      = some (((sortBySizeDesc communities).take 3).map f) ∧
    (∀ g : List Node → α,
      (∀ c ∈ (sortBySizeDesc communities).take 3, f c = g c) →
      perClusterCalls f communities = perClusterCalls g communities) := by
  have hlen : 3 ≤ (sortBySizeDesc communities).length := by
    rw [length_sortBySizeDesc]
    exact h3
  rcases hs : sortBySizeDesc communities with _ | ⟨c1, _ | ⟨c2, _ | ⟨c3, rest⟩⟩⟩
  · rw [hs] at hlen
    simp at hlen
  · rw [hs] at hlen
    simp at hlen
  · rw [hs] at hlen
    simp at hlen
  · refine ⟨hs ▸ sortBySizeDesc_perm communities, hs ▸ sortBySizeDesc_sorted communities,
      ?_, ?_⟩
    · unfold perClusterCalls
      rw [hs]
      rfl
    · intro g hg
      have h1 := hg c1 (by simp)
      have h2 := hg c2 (by simp)
      have h3' := hg c3 (by simp)
      unfold perClusterCalls
      rw [hs]
      show some [f c1, f c2, f c3] = some [g c1, g c2, g c3]
      rw [h1, h2, h3']

/-- Witness for C1 (amended) at the four-community partition. -/
theorem C1_perCluster_witness :
    (sortBySizeDesc csEx).Perm csEx ∧
    List.Pairwise (fun x y => y.length ≤ x.length) (sortBySizeDesc csEx) ∧
    perClusterCalls (fun genes => genes) csEx
      = some (((sortBySizeDesc csEx).take 3).map (fun genes => genes)) ∧
    (∀ g : List Node → List Node,
      (∀ c ∈ (sortBySizeDesc csEx).take 3, (fun genes => genes) c = g c) →
      perClusterCalls (fun genes => genes) csEx = perClusterCalls g csEx) :=
  C1_perCluster (fun genes => genes) csEx (by decide)

end Networks
